import Mathlib

/-!
Shallow embedding of `src/main.rs` (a minimal top-like process monitor).

Strings are handled as `List Char` internally so that every operation is a
structurally recursive, kernel-computable function.  Each definition mirrors
one Rust function or one Rust standard-library primitive used by the source:

* `splitOnNl` / `rustLinesAux` / `rustLines` — `str::lines` (split at `\n`,
  strip a `\r` that preceded a `\n`, final line ending optional);
* `splitWs` — `str::split_whitespace` (maximal runs of non-whitespace);
* `parseU64` — `str::parse::<u64>` (optional leading `+`, decimal digits,
  rejects empty / stray characters, errors past `2 ^ 64 - 1`);
* `rustTrim` — `str::trim`;
* `isPrefixL` / `stripPrefixL` — `str::starts_with` / `str::strip_prefix`;
* `parse_meminfo`, `parse_process_status`, `read_process_status`,
  `read_process_comm`, `read_process`, `list_processes_from`,
  `print_top_processes` — the functions of the same names in `src/main.rs`;
* `isortDesc` — `procs.sort_by(|a, b| b.2.cmp(&a.2))` in `main` (a stable
  descending sort; the output of a stable sort is uniquely determined by the
  comparator and the input order, so insertion sort is an exact model);
* `used_kb` — `total.saturating_sub(free)` in `main` (on `u64` values this
  is exactly truncated subtraction on `Nat`);
* `FileSys` — the ambient filesystem: `readToString` models
  `fs::read_to_string` (`none` is `Err`), `readDir` models `fs::read_dir`
  (`none` is `Err`; each element models one iterator item, where an element
  `none` is an `Err` entry as propagated by `entry?` in the source).

Whitespace classification uses `Char.isWhitespace` (space, tab, CR, LF), the
ASCII core of Rust's Unicode `char::is_whitespace`; all inputs relevant to
the claims are ASCII.
-/

/-- Split a character list at every newline character, keeping empty
segments, as `str::split('\n')` does. -/
def splitOnNl : List Char → List (List Char)
  | [] => [[]]
  | c :: cs =>
    if c = '\n' then [] :: splitOnNl cs
    else
      match splitOnNl cs with
      | [] => [[c]]
      | l :: ls => (c :: l) :: ls

/-- Remove one trailing carriage return, as the `\r\n` handling of
`str::lines` does for every newline-terminated segment. -/
def stripCR (l : List Char) : List Char :=
  if l.getLast? = some '\r' then l.dropLast else l

/-- All segments except the last were terminated by `\n`, so they lose one
trailing `\r`; the final segment is dropped when empty (the final line
ending is optional in `str::lines`) and otherwise kept verbatim. -/
def rustLinesAux : List (List Char) → List (List Char)
  | [] => []
  | [last] => if last.isEmpty then [] else [last]
  | seg :: rest => stripCR seg :: rustLinesAux rest

/-- `str::lines` of the source text, as lists of characters. -/
def rustLines (s : String) : List (List Char) :=
  rustLinesAux (splitOnNl s.data)

/-- `str::split_whitespace`: the maximal whitespace-free nonempty runs. -/
def splitWs : List Char → List (List Char)
  | [] => []
  | c :: cs =>
    if c.isWhitespace then splitWs cs
    else
      match cs with
      | [] => [[c]]
      | d :: _ =>
        if d.isWhitespace then [c] :: splitWs cs
        else
          match splitWs cs with
          | [] => [[c]]
          | t :: ts => (c :: t) :: ts

/-- Decimal value of a digit list (only used under an all-digits guard). -/
def digitsToNat (ds : List Char) : Nat :=
  ds.foldl (fun a c => a * 10 + (c.toNat - 48)) 0

/-- The sign handling of `u64::from_str`: one leading `+` is allowed and
skipped (a `-` or any other stray character is rejected later by the
all-digits check). -/
def dropPlus : List Char → List Char
  | '+' :: rest => rest
  | tok => tok

/-- `str::parse::<u64>`: an optional leading `+`, then a nonempty run of
ASCII digits, with values of `2 ^ 64` or more rejected as overflow. -/
def parseU64 (tok : List Char) : Option Nat :=
  let ds := dropPlus tok
  if ds.isEmpty then none
  else if ds.all Char.isDigit then
    if digitsToNat ds < 2 ^ 64 then some (digitsToNat ds) else none
  else none

/-- `str::starts_with` for a literal pattern. -/
def isPrefixL : List Char → List Char → Bool
  | [], _ => true
  | _ :: _, [] => false
  | c :: cs, d :: ds => c == d && isPrefixL cs ds

/-- `str::strip_prefix`: the remainder after the pattern, when it matches. -/
def stripPrefixL (pat l : List Char) : Option (List Char) :=
  if isPrefixL pat l then some (l.drop pat.length) else none

/-- `str::trim` (both ends, whitespace). -/
def rustTrim (s : String) : String :=
  ⟨((s.data.dropWhile Char.isWhitespace).reverse.dropWhile Char.isWhitespace).reverse⟩

/-- Result of `parse_meminfo`.  The Rust function returns
`io::Result<(u64, u64)>` and contains two `.unwrap()` calls, so a run can
end in `Ok`, in `Err`, or in a panic; `err` mirrors the `Err` case of the
return type (the function body never constructs it) and `panic` models a
failed `unwrap`. -/
inductive MeminfoResult where
  | ok (total available : Nat)
  | err
  | panic
deriving DecidableEq

/-- `value.split_whitespace().next()` then `.parse::<u64>()`, combined:
`none` exactly when one of the two `.unwrap()` calls in the source would
panic on this field value. -/
def firstTokU64 (value : List Char) : Option Nat :=
  ((splitWs value).head?).bind parseU64

/-- One iteration of the `for line in content.lines()` loop of
`parse_meminfo`: the `if let Some(value) = line.strip_prefix(..)` chain. -/
def meminfoStep (acc : MeminfoResult) (line : List Char) : MeminfoResult :=
  match acc with
  | .ok total available =>
    match stripPrefixL "MemTotal:".data line with
    | some value =>
      match firstTokU64 value with
      | some v => .ok v available
      | none => .panic
    | none =>
      match stripPrefixL "MemAvailable:".data line with
      | some value =>
        match firstTokU64 value with
        | some v => .ok total v
        | none => .panic
      | none => .ok total available
  | other => other

/-- `parse_meminfo` from `src/main.rs`: fold the loop body over the lines,
starting from `total = 0`, `available = 0`. -/
def parse_meminfo (content : String) : MeminfoResult :=
  (rustLines content).foldl meminfoStep (.ok 0 0)

/-- The numeric value a line contributes to `total`: the parsed first token
after the `MemTotal:` prefix, when the prefix matches and the token parses. -/
def totalVal (line : List Char) : Option Nat :=
  (stripPrefixL "MemTotal:".data line).bind firstTokU64

/-- The numeric value a line contributes to `available`; the outer match
mirrors the `else if` in the source (`MemTotal:` is tested first). -/
def availVal (line : List Char) : Option Nat :=
  match stripPrefixL "MemTotal:".data line with
  | some _ => none
  | none => (stripPrefixL "MemAvailable:".data line).bind firstTokU64

/-- A line does not make the `MemTotal:` branch panic: if the prefix
matches, the first token after it exists and parses as `u64`. -/
def goodTotal (line : List Char) : Bool :=
  match stripPrefixL "MemTotal:".data line with
  | some value => (firstTokU64 value).isSome
  | none => true

/-- A line does not make the `MemAvailable:` branch panic. -/
def goodAvail (line : List Char) : Bool :=
  match stripPrefixL "MemTotal:".data line with
  | some _ => true
  | none =>
    match stripPrefixL "MemAvailable:".data line with
    | some value => (firstTokU64 value).isSome
    | none => true

/-- Last element of a list, with a default: the value a sequence of
assignments to one variable leaves behind. -/
def lastD : List Nat → Nat → Nat
  | [], d => d
  | v :: vs, _ => lastD vs v

/-- `parse_process_status` from `src/main.rs`. -/
def parse_process_status (status : String) : Option Nat :=
  (((rustLines status).find? (fun l => isPrefixL "VmRSS:".data l)).bind
    (fun line => (splitWs line)[1]?)).bind parseU64

/-- The ambient filesystem, as seen by the program.  `none` models `Err`
for a whole-file read or for opening a directory; inside a directory
listing, an element `none` models an `Err` iterator item. -/
structure FileSys where
  readToString : String → Option String
  readDir : String → Option (List (Option String))

/-- `read_process_status` from `src/main.rs`: read `<base>/<pid>/status`
(`.ok()?` turns a read error into `None`), then parse it. -/
def read_process_status (fsys : FileSys) (base pid : String) : Option Nat :=
  (fsys.readToString (base ++ "/" ++ pid ++ "/status")).bind
    (fun content => parse_process_status content)

/-- `read_process_comm` from `src/main.rs`: read `<base>/<pid>/comm`,
defaulting to the empty string on a read error, then trim. -/
def read_process_comm (fsys : FileSys) (base pid : String) : String :=
  rustTrim ((fsys.readToString (base ++ "/" ++ pid ++ "/comm")).getD "")

/-- `read_process` from `src/main.rs`: the name (infallible), then the
memory value (`?` propagates `None`). -/
def read_process (fsys : FileSys) (base pid : String) : Option (String × Nat) :=
  let name := read_process_comm fsys base pid
  match read_process_status fsys base pid with
  | none => none
  | some mem => some (name, mem)

/-- The `for entry in fs::read_dir(base)?` loop of `list_processes_from`:
`entry?` aborts with `Err` on an `Err` item; a digit-named entry is pushed
exactly when `read_process` succeeds. -/
def listLoop (fsys : FileSys) (base : String) :
    List (Option String) → List (String × String × Nat) →
    Option (List (String × String × Nat))
  | [], out => some out
  | none :: _, _ => none
  | some pid :: rest, out =>
    if pid.data.all Char.isDigit then
      match read_process fsys base pid with
      | some (name, mem) => listLoop fsys base rest (out ++ [(pid, name, mem)])
      | none => listLoop fsys base rest out
    else listLoop fsys base rest out

/-- `list_processes_from` from `src/main.rs`. -/
def list_processes_from (fsys : FileSys) (base : String) :
    Option (List (String × String × Nat)) :=
  match fsys.readDir base with
  | none => none
  | some entries => listLoop fsys base entries []

/-- The records `list_processes_from` collects from an error-free entry
list: digit-named entries whose `read_process` succeeded, in listing
order. -/
def listSpec (fsys : FileSys) (base : String) (es : List String) :
    List (String × String × Nat) :=
  (es.filter (fun pid => pid.data.all Char.isDigit)).filterMap
    (fun pid => (read_process fsys base pid).map (fun nm => (pid, nm.1, nm.2)))

/-- Left-aligned padding to a minimum width, as `{:<6}` / `{:<20}` in
`format!`. -/
def padRight (s : String) (w : Nat) : String :=
  s ++ ⟨List.replicate (w - s.length) ' '⟩

/-- One row printed by `print_top_processes`:
`"{:<6} {:<20} {} kB"`. -/
def formatRow (p : String × String × Nat) : String :=
  padRight p.1 6 ++ " " ++ padRight p.2.1 20 ++ " " ++ toString p.2.2 ++ " kB"

/-- The header line printed by `print_top_processes`. -/
def topHeader (n : Nat) : String :=
  "\nTop " ++ toString n ++ " processes by memory:"

/-- `print_top_processes` from `src/main.rs`, with the printed lines made
explicit: the header, then one row per element of `procs.iter().take(n)`. -/
def print_top_processes (procs : List (String × String × Nat)) (n : Nat) :
    List String :=
  topHeader n :: (procs.take n).map formatRow

/-- Insert one record into an already sorted list, going after every
strictly larger record and before the first record that is not strictly
larger: exactly where a stable descending sort places an element that
precedes the list's elements in the input. -/
def insertDesc (x : String × String × Nat) :
    List (String × String × Nat) → List (String × String × Nat)
  | [] => [x]
  | y :: ys => if y.2.2 ≤ x.2.2 then x :: y :: ys else y :: insertDesc x ys

/-- `procs.sort_by(|a, b| b.2.cmp(&a.2))` from `main`: a stable sort,
descending on the memory field.  A stable sort's output is uniquely
determined by the comparator and the input, so stable insertion sort is an
exact model of the slice sort used by the source. -/
def isortDesc : List (String × String × Nat) → List (String × String × Nat)
  | [] => []
  | x :: xs => insertDesc x (isortDesc xs)

/-- `total.saturating_sub(free)` from `main`: on `u64` values truncated
`Nat` subtraction is exactly saturating subtraction. -/
def used_kb (total available : Nat) : Nat :=
  total - available

/-- A small concrete filesystem, used to instantiate the
filesystem-parameterised theorems on closed inputs: PID 7 has both files,
PID 9 has a status file but no comm file, PID 8 has neither, and the only
listable directory is the process root itself. -/
def fsDemo : FileSys where
  readToString := fun p =>
    if p = "/proc/7/status" then some "Name:\tinit\nVmRSS:\t    42 kB\n"
    else if p = "/proc/7/comm" then some "init\n"
    else if p = "/proc/9/status" then some "VmRSS: 5 kB"
    else none
  readDir := fun p =>
    if p = "/proc" then some [some "7", some "self", some "8"] else none

/-!
Helper lemmas.  None of these are claim theorems; the claim theorems at the
end of the file only combine them.
-/

theorem mem_insertDesc {x z : String × String × Nat} {l : List (String × String × Nat)}
    (h : z ∈ insertDesc x l) : z = x ∨ z ∈ l := by
  induction l with
  | nil => simpa [insertDesc] using h
  | cons y ys ih =>
    by_cases hle : y.2.2 ≤ x.2.2
    · simp only [insertDesc, if_pos hle] at h
      rcases List.mem_cons.mp h with h | h
      · exact Or.inl h
      · exact Or.inr h
    · simp only [insertDesc, if_neg hle] at h
      rcases List.mem_cons.mp h with h | h
      · exact Or.inr (h ▸ List.mem_cons_self y ys)
      · rcases ih h with h' | h'
        · exact Or.inl h'
        · exact Or.inr (List.mem_cons_of_mem _ h')

theorem insertDesc_perm (x : String × String × Nat) (l : List (String × String × Nat)) :
    List.Perm (insertDesc x l) (x :: l) := by
  induction l with
  | nil => simp [insertDesc]
  | cons y ys ih =>
    by_cases hle : y.2.2 ≤ x.2.2
    · simp [insertDesc, hle]
    · simp only [insertDesc, if_neg hle]
      exact (List.Perm.cons y ih).trans (List.Perm.swap x y ys)

theorem isortDesc_perm (l : List (String × String × Nat)) :
    List.Perm (isortDesc l) l := by
  induction l with
  | nil => simp [isortDesc]
  | cons x xs ih =>
    exact (insertDesc_perm x (isortDesc xs)).trans (List.Perm.cons x ih)

theorem isortDesc_length (l : List (String × String × Nat)) :
    (isortDesc l).length = l.length :=
  (isortDesc_perm l).length_eq

theorem insertDesc_pairwise {x : String × String × Nat} {l : List (String × String × Nat)}
    (h : List.Pairwise (fun p q => q.2.2 ≤ p.2.2) l) :
    List.Pairwise (fun p q => q.2.2 ≤ p.2.2) (insertDesc x l) := by
  induction l with
  | nil => simp [insertDesc]
  | cons y ys ih =>
    rw [List.pairwise_cons] at h
    by_cases hle : y.2.2 ≤ x.2.2
    · simp only [insertDesc, if_pos hle]
      rw [List.pairwise_cons]
      constructor
      · intro z hz
        rcases List.mem_cons.mp hz with hz | hz
        · subst hz; exact hle
        · exact le_trans (h.1 z hz) hle
      · exact List.pairwise_cons.mpr h
    · simp only [insertDesc, if_neg hle]
      rw [List.pairwise_cons]
      constructor
      · intro z hz
        rcases mem_insertDesc hz with hz | hz
        · subst hz; omega
        · exact h.1 z hz
      · exact ih h.2

theorem isortDesc_pairwise (l : List (String × String × Nat)) :
    List.Pairwise (fun p q => q.2.2 ≤ p.2.2) (isortDesc l) := by
  induction l with
  | nil => simp [isortDesc]
  | cons x xs ih => exact insertDesc_pairwise ih

theorem insertDesc_filter_key (x : String × String × Nat)
    (l : List (String × String × Nat)) (k : Nat) :
    (insertDesc x l).filter (fun p => p.2.2 == k) =
      if x.2.2 == k then x :: l.filter (fun p => p.2.2 == k)
      else l.filter (fun p => p.2.2 == k) := by
  induction l with
  | nil => cases hk : (x.2.2 == k) <;> simp [insertDesc, List.filter_cons, hk]
  | cons y ys ih =>
    by_cases hle : y.2.2 ≤ x.2.2
    · rw [show insertDesc x (y :: ys) = x :: y :: ys by simp [insertDesc, hle]]
      rw [List.filter_cons]
    · rw [show insertDesc x (y :: ys) = y :: insertDesc x ys by simp [insertDesc, hle]]
      rw [List.filter_cons, ih, List.filter_cons]
      cases hk : (x.2.2 == k)
      · simp [hk]
      · have hxk : x.2.2 = k := by simpa using hk
        have hyk : (y.2.2 == k) = false := by
          rw [beq_eq_false_iff_ne]
          omega
        simp [hk, hyk]

theorem isortDesc_filter_key (l : List (String × String × Nat)) (k : Nat) :
    (isortDesc l).filter (fun p => p.2.2 == k) = l.filter (fun p => p.2.2 == k) := by
  induction l with
  | nil => simp [isortDesc]
  | cons x xs ih =>
    rw [show isortDesc (x :: xs) = insertDesc x (isortDesc xs) from rfl]
    rw [insertDesc_filter_key, List.filter_cons]
    cases hk : (x.2.2 == k) <;> simp [hk, ih]

theorem lastD_cons (v : Nat) (vs : List Nat) (d : Nat) :
    lastD (v :: vs) d = lastD vs v := rfl

theorem lastD_eq_of_all_eq {vs : List Nat} {t : Nat} (hne : vs ≠ [])
    (hall : ∀ v ∈ vs, v = t) : ∀ d, lastD vs d = t := by
  induction vs with
  | nil => exact absurd rfl hne
  | cons v vs ih =>
    intro d
    rw [lastD_cons]
    cases vs with
    | nil => simpa [lastD] using hall v (List.mem_cons_self _ _)
    | cons w ws =>
      exact ih (by simp) (fun u hu => hall u (List.mem_cons_of_mem _ hu)) v

theorem meminfo_foldl (ls : List (List Char)) : ∀ t a : Nat,
    (∀ l ∈ ls, goodTotal l = true ∧ goodAvail l = true) →
    ls.foldl meminfoStep (.ok t a) =
      .ok (lastD (ls.filterMap totalVal) t) (lastD (ls.filterMap availVal) a) := by
  induction ls with
  | nil => intro t a _; simp [lastD]
  | cons l rest ih =>
    intro t a h
    have hl := h l (List.mem_cons_self _ _)
    have hrest : ∀ l' ∈ rest, goodTotal l' = true ∧ goodAvail l' = true :=
      fun l' hl' => h l' (List.mem_cons_of_mem _ hl')
    rw [List.foldl_cons, List.filterMap_cons, List.filterMap_cons]
    cases hT : stripPrefixL "MemTotal:".data l with
    | some value =>
      have : (firstTokU64 value).isSome := by
        have := hl.1
        unfold goodTotal at this
        rw [hT] at this
        exact this
      obtain ⟨v, hv⟩ := Option.isSome_iff_exists.mp this
      have hstep : meminfoStep (.ok t a) l = .ok v a := by
        simp only [meminfoStep, hT, hv]
      have htv : totalVal l = some v := by
        unfold totalVal
        rw [hT]
        exact hv
      have hav : availVal l = none := by
        unfold availVal
        rw [hT]
      rw [hstep, htv, hav, ih v a hrest, lastD_cons]
    | none =>
      cases hA : stripPrefixL "MemAvailable:".data l with
      | some value =>
        have : (firstTokU64 value).isSome := by
          have := hl.2
          unfold goodAvail at this
          rw [hT, hA] at this
          exact this
        obtain ⟨v, hv⟩ := Option.isSome_iff_exists.mp this
        have hstep : meminfoStep (.ok t a) l = .ok t v := by
          simp only [meminfoStep, hT, hA, hv]
        have htv : totalVal l = none := by
          unfold totalVal
          rw [hT]
          rfl
        have hav : availVal l = some v := by
          unfold availVal
          rw [hT, hA]
          exact hv
        rw [hstep, htv, hav, ih t v hrest, lastD_cons]
      | none =>
        have hstep : meminfoStep (.ok t a) l = .ok t a := by
          unfold meminfoStep
          rw [hT, hA]
        have htv : totalVal l = none := by
          unfold totalVal
          rw [hT]
          rfl
        have hav : availVal l = none := by
          unfold availVal
          rw [hT, hA]
          rfl
        rw [hstep, htv, hav, ih t a hrest]

theorem meminfoStep_ne_err {acc : MeminfoResult} (h : acc ≠ .err) (l : List Char) :
    meminfoStep acc l ≠ .err := by
  cases acc with
  | ok t a =>
    cases hT : stripPrefixL "MemTotal:".data l with
    | some value =>
      cases hf : firstTokU64 value with
      | some v => simp [meminfoStep, hT, hf]
      | none => simp [meminfoStep, hT, hf]
    | none =>
      cases hA : stripPrefixL "MemAvailable:".data l with
      | some value =>
        cases hf : firstTokU64 value with
        | some v => simp [meminfoStep, hT, hA, hf]
        | none => simp [meminfoStep, hT, hA, hf]
      | none => simp [meminfoStep, hT, hA]
  | err => exact absurd rfl h
  | panic => simp [meminfoStep]

theorem foldl_meminfoStep_ne_err (ls : List (List Char)) :
    ∀ acc, acc ≠ .err → ls.foldl meminfoStep acc ≠ .err := by
  induction ls with
  | nil => intro acc h; simpa using h
  | cons l rest ih =>
    intro acc h
    rw [List.foldl_cons]
    exact ih _ (meminfoStep_ne_err h l)

theorem isPrefixL_cons_iff {p : Char} {ps l : List Char} :
    isPrefixL (p :: ps) l = true ↔ ∃ rest, l = p :: rest ∧ isPrefixL ps rest = true := by
  cases l with
  | nil => simp [isPrefixL]
  | cons d ds =>
    simp only [isPrefixL, Bool.and_eq_true, beq_iff_eq]
    constructor
    · rintro ⟨rfl, h⟩
      exact ⟨ds, rfl, h⟩
    · rintro ⟨rest, heq, h⟩
      cases heq
      exact ⟨rfl, h⟩

theorem total_pfx_false_of_avail {l : List Char}
    (h : isPrefixL "MemAvailable:".data l = true) :
    isPrefixL "MemTotal:".data l = false := by
  rw [show "MemAvailable:".data = 'M' :: 'e' :: 'm' :: 'A' :: "vailable:".data from rfl] at h
  replace h := isPrefixL_cons_iff.mp h
  obtain ⟨r1, rfl, h⟩ := h
  replace h := isPrefixL_cons_iff.mp h
  obtain ⟨r2, rfl, h⟩ := h
  replace h := isPrefixL_cons_iff.mp h
  obtain ⟨r3, rfl, h⟩ := h
  replace h := isPrefixL_cons_iff.mp h
  obtain ⟨r4, rfl, h⟩ := h
  rfl

theorem find?_eq_none_of_all {p : List Char → Bool} {ls : List (List Char)}
    (h : ∀ l ∈ ls, p l = false) : ls.find? p = none := by
  induction ls with
  | nil => rfl
  | cons l rest ih =>
    rw [List.find?_cons_of_neg _ (by simp [h l (List.mem_cons_self _ _)])]
    exact ih (fun l' hl' => h l' (List.mem_cons_of_mem _ hl'))

theorem find?_append_cons {p : List Char → Bool} {pre post : List (List Char)}
    {line : List Char} (hpre : ∀ l ∈ pre, p l = false) (hline : p line = true) :
    (pre ++ line :: post).find? p = some line := by
  induction pre with
  | nil => simpa using List.find?_cons_of_pos _ hline
  | cons l rest ih =>
    rw [List.cons_append,
      List.find?_cons_of_neg _ (by simp [hpre l (List.mem_cons_self _ _)])]
    exact ih (fun l' hl' => hpre l' (List.mem_cons_of_mem _ hl'))

theorem splitWs_ws_prefix {w : List Char} (hw : ∀ c ∈ w, c.isWhitespace = true) :
    ∀ l : List Char, splitWs (w ++ l) = splitWs l := by
  induction w with
  | nil => intro l; rfl
  | cons c cs ih =>
    intro l
    rw [List.cons_append]
    rw [show splitWs (c :: (cs ++ l)) = splitWs (cs ++ l) by
      simp [splitWs, hw c (List.mem_cons_self _ _)]]
    exact ih (fun c' hc' => hw c' (List.mem_cons_of_mem _ hc')) l

theorem splitWs_all_ws {w : List Char} (hw : ∀ c ∈ w, c.isWhitespace = true) :
    splitWs w = [] := by
  have := splitWs_ws_prefix hw []
  simpa using this

theorem splitWs_token {t : List Char} (htne : t ≠ [])
    (ht : ∀ c ∈ t, c.isWhitespace = false) :
    ∀ l : List Char, l.head?.all Char.isWhitespace = true →
    splitWs (t ++ l) = t :: splitWs l := by
  induction t with
  | nil => exact absurd rfl htne
  | cons c cs ih =>
    intro l hl
    have hc : c.isWhitespace = false := ht c (List.mem_cons_self _ _)
    cases cs with
    | nil =>
      cases l with
      | nil => simp [splitWs, hc]
      | cons d ds =>
        have hd : d.isWhitespace = true := by simpa using hl
        simp [splitWs, hc, hd]
    | cons c' cs' =>
      have hc' : c'.isWhitespace = false :=
        ht c' (List.mem_cons_of_mem _ (List.mem_cons_self _ _))
      have hrec := ih (by simp)
        (fun u hu => ht u (List.mem_cons_of_mem _ hu)) l hl
      have hgoal : splitWs ((c :: c' :: cs') ++ l) =
          match splitWs ((c' :: cs') ++ l) with
          | [] => [[c]]
          | u :: us => (c :: u) :: us := by
        conv_lhs => rw [List.cons_append, splitWs.eq_def]
        simp [hc, hc']
      rw [hgoal, hrec]

theorem digit_not_ws {c : Char} (h : c.isDigit = true) : c.isWhitespace = false := by
  rcases Bool.eq_false_or_eq_true c.isWhitespace with hw | hw
  · exfalso
    simp only [Char.isWhitespace, Bool.or_eq_true, decide_eq_true_eq] at hw
    rcases hw with ((h' | h') | h') | h' <;> (subst h'; exact absurd h (by decide))
  · exact hw

theorem mem_dropPlus {c : Char} {tok : List Char} (hc : c ∈ tok) :
    c = '+' ∨ c ∈ dropPlus tok := by
  unfold dropPlus
  split
  · rcases List.mem_cons.mp hc with h | h
    · exact Or.inl h
    · exact Or.inr h
  · exact Or.inr hc

theorem parseU64_some_facts {tok : List Char} {n : Nat} (h : parseU64 tok = some n) :
    (dropPlus tok).isEmpty = false ∧ (dropPlus tok).all Char.isDigit = true := by
  unfold parseU64 at h
  by_cases h1 : (dropPlus tok).isEmpty
  · simp [h1] at h
  · by_cases h2 : (dropPlus tok).all Char.isDigit
    · exact ⟨by simpa using h1, h2⟩
    · simp [h1, h2] at h

theorem parseU64_chars_not_ws {tok : List Char} {n : Nat} (h : parseU64 tok = some n) :
    ∀ c ∈ tok, c.isWhitespace = false := by
  intro c hc
  rcases mem_dropPlus hc with h' | h'
  · subst h'; decide
  · exact digit_not_ws (List.all_eq_true.mp (parseU64_some_facts h).2 c h')

theorem parseU64_ne_nil {tok : List Char} {n : Nat} (h : parseU64 tok = some n) :
    tok ≠ [] := by
  rintro rfl
  rw [show parseU64 [] = (none : Option Nat) from rfl] at h
  exact Option.noConfusion h

theorem splitOnNl_no_nl {l : List Char} (h : '\n' ∉ l) : splitOnNl l = [l] := by
  induction l with
  | nil => rfl
  | cons c cs ih =>
    have hc : ¬ c = '\n' := fun hc => h (hc ▸ List.mem_cons_self _ _)
    have hcs := ih (fun hm => h (List.mem_cons_of_mem _ hm))
    simp [splitOnNl, hc, hcs]

theorem rustLines_single {l : List Char} (hnl : '\n' ∉ l) (hne : l ≠ []) :
    rustLines ⟨l⟩ = [l] := by
  have hemp : l.isEmpty = false := by simpa [List.isEmpty_iff] using hne
  unfold rustLines
  rw [show (String.mk l).data = l from rfl, splitOnNl_no_nl hnl]
  simp [rustLinesAux, hemp]

theorem listLoop_map_some (fsys : FileSys) (base : String) :
    ∀ (es : List String) (out : List (String × String × Nat)),
    listLoop fsys base (es.map some) out = some (out ++ listSpec fsys base es) := by
  intro es
  induction es with
  | nil => intro out; simp [listLoop, listSpec]
  | cons pid rest ih =>
    intro out
    rw [List.map_cons]
    by_cases hd : pid.data.all Char.isDigit
    · cases hr : read_process fsys base pid with
      | some nm =>
        obtain ⟨name, mem⟩ := nm
        rw [show listLoop fsys base (some pid :: List.map some rest) out =
            listLoop fsys base (List.map some rest) (out ++ [(pid, name, mem)]) from by
          simp [listLoop, hd, hr]]
        rw [ih]
        rw [List.append_assoc]
        congr 1
        simp [listSpec, List.filter_cons, hd, List.filterMap_cons, hr]
      | none =>
        rw [show listLoop fsys base (some pid :: List.map some rest) out =
            listLoop fsys base (List.map some rest) out from by
          simp [listLoop, hd, hr]]
        rw [ih]
        congr 2
        simp [listSpec, List.filter_cons, hd, List.filterMap_cons, hr]
    · rw [show listLoop fsys base (some pid :: List.map some rest) out =
          listLoop fsys base (List.map some rest) out from by
        simp [listLoop, hd]]
      rw [ih]
      congr 2
      simp [listSpec, List.filter_cons, hd]

theorem mem_listSpec {fsys : FileSys} {base : String} {es : List String}
    {pid name : String} {mem : Nat}
    (h : (pid, name, mem) ∈ listSpec fsys base es) :
    pid.data.all Char.isDigit = true ∧ read_process fsys base pid = some (name, mem) := by
  unfold listSpec at h
  rw [List.mem_filterMap] at h
  obtain ⟨q, hq, hmap⟩ := h
  rw [List.mem_filter] at hq
  cases hr : read_process fsys base q with
  | none => rw [hr] at hmap; cases hmap
  | some nm =>
    obtain ⟨name', mem'⟩ := nm
    rw [hr] at hmap
    simp only [Option.map_some', Option.some.injEq, Prod.mk.injEq] at hmap
    obtain ⟨rfl, rfl, rfl⟩ := hmap
    exact ⟨hq.2, hr⟩

theorem isPrefixL_self_append (p r : List Char) : isPrefixL p (p ++ r) = true := by
  induction p with
  | nil => rfl
  | cons c cs ih => simp [isPrefixL, ih]

theorem isPrefixL_of_strip {pat l v : List Char}
    (h : stripPrefixL pat l = some v) : isPrefixL pat l = true := by
  by_cases hp : isPrefixL pat l
  · exact hp
  · simp [stripPrefixL, hp] at h

theorem foldl_meminfoStep_panic (ls : List (List Char)) :
    ls.foldl meminfoStep .panic = .panic := by
  induction ls with
  | nil => rfl
  | cons l rest ih =>
    rw [List.foldl_cons]
    exact ih

theorem meminfoStep_panic_of_bad {t a : Nat} {l : List Char}
    (h : goodTotal l = false ∨ goodAvail l = false) :
    meminfoStep (.ok t a) l = .panic := by
  cases hT : stripPrefixL "MemTotal:".data l with
  | some value =>
    have hbad : (firstTokU64 value).isSome = false := by
      rcases h with h | h
      · unfold goodTotal at h
        rw [hT] at h
        exact h
      · unfold goodAvail at h
        rw [hT] at h
        cases h
    cases hf : firstTokU64 value with
    | none => simp only [meminfoStep, hT, hf]
    | some v => rw [hf] at hbad; cases hbad
  | none =>
    cases hA : stripPrefixL "MemAvailable:".data l with
    | some value =>
      have hbad : (firstTokU64 value).isSome = false := by
        rcases h with h | h
        · unfold goodTotal at h
          rw [hT] at h
          cases h
        · unfold goodAvail at h
          rw [hT, hA] at h
          exact h
      cases hf : firstTokU64 value with
      | none => simp only [meminfoStep, hT, hA, hf]
      | some v => rw [hf] at hbad; cases hbad
    | none =>
      exfalso
      rcases h with h | h
      · unfold goodTotal at h
        rw [hT] at h
        cases h
      · unfold goodAvail at h
        rw [hT, hA] at h
        cases h

theorem meminfoStep_ok_of_good {l : List Char} (h1 : goodTotal l = true)
    (h2 : goodAvail l = true) (t a : Nat) :
    ∃ t2 a2, meminfoStep (.ok t a) l = .ok t2 a2 := by
  cases hT : stripPrefixL "MemTotal:".data l with
  | some value =>
    have hs : (firstTokU64 value).isSome = true := by
      unfold goodTotal at h1
      rw [hT] at h1
      exact h1
    obtain ⟨v, hv⟩ := Option.isSome_iff_exists.mp hs
    exact ⟨v, a, by simp only [meminfoStep, hT, hv]⟩
  | none =>
    cases hA : stripPrefixL "MemAvailable:".data l with
    | some value =>
      have hs : (firstTokU64 value).isSome = true := by
        unfold goodAvail at h2
        rw [hT, hA] at h2
        exact h2
      obtain ⟨v, hv⟩ := Option.isSome_iff_exists.mp hs
      exact ⟨t, v, by simp only [meminfoStep, hT, hA, hv]⟩
    | none => exact ⟨t, a, by simp only [meminfoStep, hT, hA]⟩

theorem foldl_meminfoStep_panic_of_bad (ls : List (List Char)) :
    ∀ t a : Nat, (∃ l ∈ ls, goodTotal l = false ∨ goodAvail l = false) →
    ls.foldl meminfoStep (.ok t a) = .panic := by
  induction ls with
  | nil =>
    rintro t a ⟨l, hl, -⟩
    exact absurd hl (List.not_mem_nil l)
  | cons l rest ih =>
    rintro t a ⟨l0, hl0, hbad⟩
    rcases List.mem_cons.mp hl0 with rfl | hl0'
    · rw [List.foldl_cons, meminfoStep_panic_of_bad hbad]
      exact foldl_meminfoStep_panic rest
    · cases hgT : goodTotal l with
      | false =>
        rw [List.foldl_cons, meminfoStep_panic_of_bad (Or.inl hgT)]
        exact foldl_meminfoStep_panic rest
      | true =>
        cases hgA : goodAvail l with
        | false =>
          rw [List.foldl_cons, meminfoStep_panic_of_bad (Or.inr hgA)]
          exact foldl_meminfoStep_panic rest
        | true =>
          obtain ⟨t2, a2, hstep⟩ := meminfoStep_ok_of_good hgT hgA t a
          rw [List.foldl_cons, hstep]
          exact ih t2 a2 ⟨l0, hl0', hbad⟩

/-!
Claim theorems, witnesses and counterexamples.
-/

/-- Claim C4 (confirmed): for every status text in which no line begins with
the literal token `VmRSS:`, `parse_process_status` returns `none` (the
"not found" value) and does not fail or return an error. -/
theorem claim_C4 (status : String)
    (h : ∀ l ∈ rustLines status, isPrefixL "VmRSS:".data l = false) :
    parse_process_status status = none := by
  unfold parse_process_status
  rw [find?_eq_none_of_all h]
  rfl

/-- Witness for C4: a concrete status text with no `VmRSS:` line. -/
theorem claim_C4_witness : parse_process_status "Name: kthreadd\nState: S\n" = none :=
  claim_C4 "Name: kthreadd\nState: S\n" (by decide)

/-- Claim C5, counterexample: the result of `parse_process_status` is not
independent of leading whitespace around the `VmRSS:` line — adding one
leading space to the line flips the result from `some 1234` to `none`. -/
theorem claim_C5_counterexample :
    parse_process_status "VmRSS: 1234 kB" = some 1234 ∧
    parse_process_status " VmRSS: 1234 kB" = none :=
  ⟨by decide, by decide⟩

/-- Claim C5 (corrected): when the first line beginning with `VmRSS:` has a
second whitespace-separated field that parses as an unsigned integer `n`,
`parse_process_status` returns `some n`; the result is independent of the
amount of blank space between the label and the value and after the value
(though not of leading whitespace before the label, per the
counterexample); the spec's example parses VmRSS as 1234. -/
theorem claim_C5_amended :
    (∀ (status : String) (pre post : List (List Char)) (line : List Char) (n : Nat),
       rustLines status = pre ++ line :: post →
       (∀ l ∈ pre, isPrefixL "VmRSS:".data l = false) →
       isPrefixL "VmRSS:".data line = true →
       ((splitWs line)[1]?).bind parseU64 = some n →
       parse_process_status status = some n)
    ∧ (∀ (w1 w2 tok : List Char) (n : Nat),
       (∀ c ∈ w1, c = ' ' ∨ c = '\t') → (∀ c ∈ w2, c = ' ' ∨ c = '\t') →
       w1 ≠ [] → parseU64 tok = some n →
       parse_process_status ⟨"VmRSS:".data ++ w1 ++ tok ++ w2⟩ = some n)
    ∧ parse_process_status "Name: myproc\nVmRSS:   1234 kB\n" = some 1234 := by
  refine ⟨?_, ?_, by decide⟩
  · intro status pre post line n hsplit hpre hline htok
    unfold parse_process_status
    rw [hsplit, find?_append_cons hpre hline]
    simpa using htok
  · intro w1 w2 tok n hw1 hw2 hne htok
    have hw1ws : ∀ c ∈ w1, c.isWhitespace = true := by
      intro c hc
      rcases hw1 c hc with rfl | rfl <;> decide
    have hw2ws : ∀ c ∈ w2, c.isWhitespace = true := by
      intro c hc
      rcases hw2 c hc with rfl | rfl <;> decide
    have htokws : ∀ c ∈ tok, c.isWhitespace = false := parseU64_chars_not_ws htok
    have htokne : tok ≠ [] := parseU64_ne_nil htok
    have hnl : '\n' ∉ "VmRSS:".data ++ w1 ++ tok ++ w2 := by
      intro hmem
      simp only [List.mem_append] at hmem
      rcases hmem with ((h | h) | h) | h
      · exact absurd h (by decide)
      · rcases hw1 _ h with h' | h' <;> exact absurd h' (by decide)
      · have hws := htokws _ h
        rw [show ('\n').isWhitespace = true from rfl] at hws
        cases hws
      · rcases hw2 _ h with h' | h' <;> exact absurd h' (by decide)
    have hlinene : "VmRSS:".data ++ w1 ++ tok ++ w2 ≠ [] := by
      intro h
      have := congrArg List.length h
      simp [List.length_append] at this
    have hlines := rustLines_single hnl hlinene
    have hpfx : isPrefixL "VmRSS:".data ("VmRSS:".data ++ w1 ++ tok ++ w2) = true := by
      rw [List.append_assoc, List.append_assoc]
      exact isPrefixL_self_append _ _
    have h1 : splitWs ("VmRSS:".data ++ (w1 ++ (tok ++ w2))) =
        "VmRSS:".data :: splitWs (w1 ++ (tok ++ w2)) := by
      apply splitWs_token (by decide) (by decide)
      cases w1 with
      | nil => exact absurd rfl hne
      | cons c cs => simpa using hw1ws c (List.mem_cons_self _ _)
    have h2 : splitWs (w1 ++ (tok ++ w2)) = splitWs (tok ++ w2) :=
      splitWs_ws_prefix hw1ws _
    have h3 : splitWs (tok ++ w2) = tok :: splitWs w2 := by
      apply splitWs_token htokne htokws
      cases w2 with
      | nil => rfl
      | cons c cs => simpa using hw2ws c (List.mem_cons_self _ _)
    have h4 : splitWs w2 = [] := splitWs_all_ws hw2ws
    have hsplit : splitWs ("VmRSS:".data ++ w1 ++ tok ++ w2) = ["VmRSS:".data, tok] := by
      rw [List.append_assoc, List.append_assoc, h1, h2, h3, h4]
    unfold parse_process_status
    rw [hlines, List.find?_cons_of_pos _ hpfx]
    simp only [Option.some_bind]
    rw [hsplit]
    simpa using htok

/-- Witness for C5 (amended), at one space of padding around the value 9. -/
theorem claim_C5_amended_witness :
    parse_process_status ⟨"VmRSS:".data ++ [' '] ++ ['9'] ++ [' ']⟩ = some 9 :=
  claim_C5_amended.2.1 [' '] [' '] ['9'] 9 (by decide) (by decide) (by decide) (by decide)

/-- Claim C1, counterexample: on an input in which both fields are absent,
`parse_meminfo` returns `Ok (0, 0)` rather than an error value, and on a
`MemTotal:` line whose first token is non-numeric it panics (a failed
`unwrap`) rather than returning a structured failure. -/
theorem claim_C1_counterexample :
    parse_meminfo "" = .ok 0 0 ∧
    parse_meminfo "MemTotal: garbage kB\nMemAvailable: 1 kB" = .panic :=
  ⟨by decide, by decide⟩

/-- Claim C1 (corrected): `parse_meminfo` never returns an `Err`; whenever
some field line's first whitespace-delimited token is missing or
non-numeric (`goodTotal`/`goodAvail` is `false` for that line), it panics;
when the `MemTotal:` field is absent (and no line panics) it returns `Ok`
with 0 for total, and symmetrically when `MemAvailable:` is absent it
returns `Ok` with 0 for available; with both fields absent it returns
`Ok (0, 0)`; concrete panics at a non-numeric token and at a missing
token. -/
theorem claim_C1_amended :
    (∀ content : String, parse_meminfo content ≠ .err)
    ∧ (∀ content : String,
        (∃ l ∈ rustLines content, goodTotal l = false ∨ goodAvail l = false) →
        parse_meminfo content = .panic)
    ∧ (∀ content : String,
        (∀ l ∈ rustLines content, goodTotal l = true ∧ goodAvail l = true) →
        (∀ l ∈ rustLines content, isPrefixL "MemTotal:".data l = false) →
        parse_meminfo content =
          .ok 0 (lastD ((rustLines content).filterMap availVal) 0))
    ∧ (∀ content : String,
        (∀ l ∈ rustLines content, goodTotal l = true ∧ goodAvail l = true) →
        (∀ l ∈ rustLines content, isPrefixL "MemAvailable:".data l = false) →
        parse_meminfo content =
          .ok (lastD ((rustLines content).filterMap totalVal) 0) 0)
    ∧ (∀ content : String,
        (∀ l ∈ rustLines content,
          isPrefixL "MemTotal:".data l = false ∧
          isPrefixL "MemAvailable:".data l = false) →
        parse_meminfo content = .ok 0 0)
    ∧ parse_meminfo "MemTotal: garbage kB" = .panic
    ∧ parse_meminfo "MemTotal:" = .panic := by
  refine ⟨?_, ?_, ?_, ?_, ?_, by decide, by decide⟩
  · intro content
    exact foldl_meminfoStep_ne_err _ _ (by decide)
  · intro content h
    exact foldl_meminfoStep_panic_of_bad _ 0 0 h
  · intro content hgood habs
    have hT : ∀ l ∈ rustLines content, totalVal l = none := by
      intro l hl
      unfold totalVal
      rw [show stripPrefixL "MemTotal:".data l = none from by
        simp [stripPrefixL, habs l hl]]
      rfl
    unfold parse_meminfo
    rw [meminfo_foldl _ 0 0 hgood, List.filterMap_eq_nil_iff.mpr hT]
    rfl
  · intro content hgood habs
    have hA : ∀ l ∈ rustLines content, availVal l = none := by
      intro l hl
      unfold availVal
      cases hT : stripPrefixL "MemTotal:".data l with
      | some v => rfl
      | none =>
        rw [show stripPrefixL "MemAvailable:".data l = none from by
          simp [stripPrefixL, habs l hl]]
        rfl
    unfold parse_meminfo
    rw [meminfo_foldl _ 0 0 hgood, List.filterMap_eq_nil_iff.mpr hA]
    rfl
  · intro content h
    have hT : ∀ l ∈ rustLines content, totalVal l = none := by
      intro l hl
      unfold totalVal
      rw [show stripPrefixL "MemTotal:".data l = none from by
        simp [stripPrefixL, (h l hl).1]]
      rfl
    have hA : ∀ l ∈ rustLines content, availVal l = none := by
      intro l hl
      unfold availVal
      rw [show stripPrefixL "MemTotal:".data l = none from by
        simp [stripPrefixL, (h l hl).1]]
      rw [show stripPrefixL "MemAvailable:".data l = none from by
        simp [stripPrefixL, (h l hl).2]]
      rfl
    have hgood : ∀ l ∈ rustLines content, goodTotal l = true ∧ goodAvail l = true := by
      intro l hl
      constructor
      · unfold goodTotal
        rw [show stripPrefixL "MemTotal:".data l = none from by
          simp [stripPrefixL, (h l hl).1]]
      · unfold goodAvail
        rw [show stripPrefixL "MemTotal:".data l = none from by
          simp [stripPrefixL, (h l hl).1]]
        rw [show stripPrefixL "MemAvailable:".data l = none from by
          simp [stripPrefixL, (h l hl).2]]
    unfold parse_meminfo
    rw [meminfo_foldl _ 0 0 hgood, List.filterMap_eq_nil_iff.mpr hT,
      List.filterMap_eq_nil_iff.mpr hA]
    rfl

/-- Witness for C1 (amended): no `Err` and `Ok (0, 0)` on a field-free
input, panic from a non-numeric token, and per-field zero defaults with
the other field present. -/
theorem claim_C1_amended_witness :
    parse_meminfo "Cached: 100 kB" ≠ .err
    ∧ parse_meminfo "MemTotal: x\nMemAvailable: 2" = .panic
    ∧ parse_meminfo "MemAvailable: 8" = .ok 0 8
    ∧ parse_meminfo "MemTotal: 7" = .ok 7 0
    ∧ parse_meminfo "Cached: 100 kB" = .ok 0 0 :=
  ⟨claim_C1_amended.1 _,
   claim_C1_amended.2.1 _ (by decide),
   (claim_C1_amended.2.2.1 _ (by decide) (by decide)).trans (by decide),
   (claim_C1_amended.2.2.2.1 _ (by decide) (by decide)).trans (by decide),
   claim_C1_amended.2.2.2.2.1 _ (by decide)⟩


/-- Claim C2 (confirmed): for every text containing at least one
`MemTotal:`-prefixed line and at least one `MemAvailable:`-prefixed line,
all of whose `MemTotal:` lines carry the numeric value `t` and all of
whose `MemAvailable:` lines carry `a`, `parse_meminfo` returns
`Ok (t, a)`, regardless of any other unrelated lines present and of the
order of the lines; the spec's example parses to total 16384256 and
available 2345678. -/
theorem claim_C2 :
    (∀ (content : String) (t a : Nat),
       (∃ l ∈ rustLines content, isPrefixL "MemTotal:".data l = true) →
       (∀ l ∈ rustLines content, isPrefixL "MemTotal:".data l = true →
         totalVal l = some t) →
       (∃ l ∈ rustLines content, isPrefixL "MemAvailable:".data l = true) →
       (∀ l ∈ rustLines content, isPrefixL "MemAvailable:".data l = true →
         availVal l = some a) →
       parse_meminfo content = .ok t a)
    ∧ parse_meminfo "MemTotal:       16384256 kB\nMemAvailable:    2345678 kB" =
        .ok 16384256 2345678 := by
  refine ⟨?_, by decide⟩
  intro content t a h1 h2 h3 h4
  have hgood : ∀ l ∈ rustLines content, goodTotal l = true ∧ goodAvail l = true := by
    intro l hl
    constructor
    · unfold goodTotal
      cases hT : stripPrefixL "MemTotal:".data l with
      | none => rfl
      | some value =>
        have hv := h2 l hl (isPrefixL_of_strip hT)
        unfold totalVal at hv
        rw [hT] at hv
        simp only [Option.some_bind] at hv
        simp [hv]
    · unfold goodAvail
      cases hT : stripPrefixL "MemTotal:".data l with
      | some value => rfl
      | none =>
        cases hA : stripPrefixL "MemAvailable:".data l with
        | none => rfl
        | some value =>
          have hv := h4 l hl (isPrefixL_of_strip hA)
          unfold availVal at hv
          rw [hT, hA] at hv
          simp only [Option.some_bind] at hv
          simp [hv]
  unfold parse_meminfo
  rw [meminfo_foldl _ 0 0 hgood]
  have hTlast : lastD ((rustLines content).filterMap totalVal) 0 = t := by
    obtain ⟨l0, hl0, hp0⟩ := h1
    have hv0 : totalVal l0 = some t := h2 l0 hl0 hp0
    have hne : (rustLines content).filterMap totalVal ≠ [] :=
      List.ne_nil_of_mem (List.mem_filterMap.mpr ⟨l0, hl0, hv0⟩)
    have hall : ∀ v ∈ (rustLines content).filterMap totalVal, v = t := by
      intro v hv
      obtain ⟨l, hl, hvl⟩ := List.mem_filterMap.mp hv
      have hp : isPrefixL "MemTotal:".data l = true := by
        unfold totalVal at hvl
        cases hT : stripPrefixL "MemTotal:".data l with
        | none => rw [hT] at hvl; simp at hvl
        | some value => exact isPrefixL_of_strip hT
      have := h2 l hl hp
      rw [hvl] at this
      exact Option.some.inj this
    exact lastD_eq_of_all_eq hne hall 0
  have hAlast : lastD ((rustLines content).filterMap availVal) 0 = a := by
    obtain ⟨l0, hl0, hp0⟩ := h3
    have hv0 : availVal l0 = some a := h4 l0 hl0 hp0
    have hne : (rustLines content).filterMap availVal ≠ [] :=
      List.ne_nil_of_mem (List.mem_filterMap.mpr ⟨l0, hl0, hv0⟩)
    have hall : ∀ v ∈ (rustLines content).filterMap availVal, v = a := by
      intro v hv
      obtain ⟨l, hl, hvl⟩ := List.mem_filterMap.mp hv
      have hp : isPrefixL "MemAvailable:".data l = true := by
        unfold availVal at hvl
        cases hT : stripPrefixL "MemTotal:".data l with
        | some value => rw [hT] at hvl; simp at hvl
        | none =>
          rw [hT] at hvl
          cases hA : stripPrefixL "MemAvailable:".data l with
          | none => rw [hA] at hvl; simp at hvl
          | some value => exact isPrefixL_of_strip hA
      have := h4 l hl hp
      rw [hvl] at this
      exact Option.some.inj this
    exact lastD_eq_of_all_eq hne hall 0
  rw [hTlast, hAlast]

/-- Witness for C2: both fields present among an unrelated line. -/
theorem claim_C2_witness :
    parse_meminfo "Buffers: 2\nMemTotal: 5 kB\nMemAvailable: 3 kB" = .ok 5 3 :=
  claim_C2.1 _ 5 3 (by decide) (by decide) (by decide) (by decide)

/-- Claim C10 (confirmed): whenever no field line panics, `parse_meminfo`
returns, for each of the two fields, the value carried by the last line of
that field in line order, or 0 when no line carries the field; with
duplicate field lines the last occurrence wins, and an absent field is
reported as 0 rather than as an error. -/
theorem claim_C10 :
    (∀ content : String,
       (∀ l ∈ rustLines content, goodTotal l = true ∧ goodAvail l = true) →
       parse_meminfo content =
         .ok (lastD ((rustLines content).filterMap totalVal) 0)
             (lastD ((rustLines content).filterMap availVal) 0))
    ∧ parse_meminfo "MemTotal: 1\nMemAvailable: 2\nMemTotal: 3\nMemAvailable: 4" =
        .ok 3 4
    ∧ parse_meminfo "SomeOtherValue: 7" = .ok 0 0 := by
  refine ⟨?_, by decide, by decide⟩
  intro content h
  exact meminfo_foldl _ 0 0 h

/-- Witness for C10 at a concrete input with a duplicated field. -/
theorem claim_C10_witness :
    parse_meminfo "MemTotal: 2\nMemTotal: 9" =
      .ok (lastD ((rustLines "MemTotal: 2\nMemTotal: 9").filterMap totalVal) 0)
          (lastD ((rustLines "MemTotal: 2\nMemTotal: 9").filterMap availVal) 0) :=
  claim_C10.1 _ (by decide)

/-- Claim C9 (confirmed): the derived `used_kb` equals
`total_kb - available_kb`, saturating at zero when `available_kb` exceeds
`total_kb`; the spec's example yields used 14038578. -/
theorem claim_C9 :
    (∀ total available : Nat, available ≤ total →
      used_kb total available + available = total)
    ∧ (∀ total available : Nat, total ≤ available → used_kb total available = 0)
    ∧ parse_meminfo "MemTotal:       16384256 kB\nMemAvailable:    2345678 kB" =
        .ok 16384256 2345678
    ∧ used_kb 16384256 2345678 = 14038578 := by
  refine ⟨?_, ?_, by decide, by decide⟩
  · intro t a h
    unfold used_kb
    omega
  · intro t a h
    unfold used_kb
    omega

/-- Witness for C9 at 10/4 and 4/10. -/
theorem claim_C9_witness :
    used_kb 10 4 + 4 = 10 ∧ used_kb 4 10 = 0 :=
  ⟨claim_C9.1 10 4 (by decide), claim_C9.2.1 4 10 (by decide)⟩

/-- Claim C3 (confirmed): the presentation pipeline (stable descending sort
by the memory field, then `print_top_processes`) emits the header plus
exactly `min n (length procs)` rows; the sorted sequence is non-increasing
in the memory field and is a permutation of the input; records with equal
memory retain their original scan order (for every key, filtering the
sorted list by that memory value gives the same subsequence as filtering
the input); and `n = 0` produces the header line with zero rows. -/
theorem claim_C3 (procs : List (String × String × Nat)) (n : Nat) :
    print_top_processes (isortDesc procs) n =
      topHeader n :: ((isortDesc procs).take n).map formatRow
    ∧ (((isortDesc procs).take n).map formatRow).length = min n procs.length
    ∧ List.Pairwise (fun p q => q.2.2 ≤ p.2.2) (isortDesc procs)
    ∧ List.Perm (isortDesc procs) procs
    ∧ (∀ k, (isortDesc procs).filter (fun p => p.2.2 == k) =
        procs.filter (fun p => p.2.2 == k))
    ∧ print_top_processes (isortDesc procs) 0 = [topHeader 0] := by
  refine ⟨rfl, ?_, isortDesc_pairwise procs, isortDesc_perm procs,
    fun k => isortDesc_filter_key procs k, ?_⟩
  · rw [List.length_map, List.length_take, isortDesc_length]
  · simp [print_top_processes]

/-- Claim C6 (confirmed): a record is produced by `read_process` only if
both lookups succeeded — its memory field is exactly the successful result
of the resident-memory lookup and its name field is exactly the result of
the (infallible) name lookup — and when the memory lookup fails the
partial read is silently dropped. -/
theorem claim_C6 (fsys : FileSys) (base pid : String) :
    (∀ (name : String) (mem : Nat), read_process fsys base pid = some (name, mem) →
      read_process_status fsys base pid = some mem ∧
      read_process_comm fsys base pid = name)
    ∧ (read_process_status fsys base pid = none → read_process fsys base pid = none) := by
  constructor
  · intro name mem h
    unfold read_process at h
    cases hs : read_process_status fsys base pid with
    | none => rw [hs] at h; simp at h
    | some m =>
      rw [hs] at h
      simp only [Option.some.injEq, Prod.mk.injEq] at h
      exact ⟨by rw [h.2], h.1⟩
  · intro h
    simp [read_process, h]

/-- Witness for C6 at the demo filesystem's PID 7. -/
theorem claim_C6_witness :
    read_process_status fsDemo "/proc" "7" = some 42 ∧
    read_process_comm fsDemo "/proc" "7" = "init" :=
  (claim_C6 fsDemo "/proc" "7").1 "init" 42 (by decide)

/-- Claim C7 (confirmed): the comm reader returns the trimmed contents of
the process's comm file, and the empty string on any read failure rather
than failing; consequently, when the memory lookup succeeds for a PID
whose comm read failed, `read_process` still returns a record with an
empty name. -/
theorem claim_C7 (fsys : FileSys) (base pid : String) :
    (∀ c, fsys.readToString (base ++ "/" ++ pid ++ "/comm") = some c →
      read_process_comm fsys base pid = rustTrim c)
    ∧ (fsys.readToString (base ++ "/" ++ pid ++ "/comm") = none →
      read_process_comm fsys base pid = "")
    ∧ (∀ mem : Nat, fsys.readToString (base ++ "/" ++ pid ++ "/comm") = none →
      read_process_status fsys base pid = some mem →
      read_process fsys base pid = some ("", mem)) := by
  refine ⟨?_, ?_, ?_⟩
  · intro c h
    unfold read_process_comm
    rw [h]
    rfl
  · intro h
    unfold read_process_comm
    rw [h]
    rfl
  · intro mem h1 h2
    have hc : read_process_comm fsys base pid = "" := by
      unfold read_process_comm
      rw [h1]
      rfl
    simp [read_process, h2, hc]

/-- Witness for C7 at the demo filesystem's PID 9 (status without comm). -/
theorem claim_C7_witness : read_process fsDemo "/proc" "9" = some ("", 5) :=
  (claim_C7 fsDemo "/proc" "9").2.2 5 (by decide) (by decide)

/-- Claim C8 (confirmed): `list_processes_from` returns a structured
failure exactly when the top-level directory listing fails; from an
error-free listing it returns (without failing) exactly the records of
digit-named entries whose memory lookup succeeds, in listing order —
entries whose `read_process` fails (a process that disappeared between
listing and reading) are silently skipped, and an entry whose name is not
all decimal digits never contributes a record. -/
theorem claim_C8 (fsys : FileSys) (base : String) :
    (fsys.readDir base = none → list_processes_from fsys base = none)
    ∧ (∀ es : List String, fsys.readDir base = some (es.map some) →
        list_processes_from fsys base = some (listSpec fsys base es))
    ∧ (∀ (es : List String) (pid name : String) (mem : Nat),
        (pid, name, mem) ∈ listSpec fsys base es →
        pid.data.all Char.isDigit = true ∧
        read_process fsys base pid = some (name, mem))
    ∧ (∀ (es : List String) (pid : String), pid ∈ es →
        pid.data.all Char.isDigit = false →
        ∀ (name : String) (mem : Nat), (pid, name, mem) ∉ listSpec fsys base es) := by
  refine ⟨?_, ?_, ?_, ?_⟩
  · intro h
    simp [list_processes_from, h]
  · intro es h
    simp only [list_processes_from, h]
    rw [listLoop_map_some]
    simp
  · intro es pid name mem h
    exact mem_listSpec h
  · intro es pid _ hd name mem hmem
    exact absurd (mem_listSpec hmem).1 (by simp [hd])

/-- Witness for C8 on the demo filesystem: the non-numeric entry `self`
and the vanished PID 8 are skipped. -/
theorem claim_C8_witness :
    list_processes_from fsDemo "/proc" = some [("7", "init", 42)] := by
  have h := (claim_C8 fsDemo "/proc").2.1 ["7", "self", "8"] (by decide)
  rw [h]
  decide
